import Mathlib

/-!
Shallow embedding of the KIRtyper genotyping pipeline.

The embedding follows the Python sources module by module:

* `Read.py` — CIGAR parsing (`parse_cigar`) and alignment reconstruction
  (`get_aligned_sequence`);
* `AlignmentInformation.py` — the per-exon-position evidence accumulator
  (`update_count_dictionary`) and the proportion derivation
  (`create_proportion_dictionary`);
* `ProgressiveAnalysis.py` — per-position present-symbol computation
  (`presentNucleotides`), the allele-elimination loop (`progressiveStep`,
  `progressiveRun`) and the synthetic "Present Nucleotides" annotation of the
  proportion dictionary (`annotatePresent`);
* `CombinedAnalysis.py` — the discriminant-position test (`is_discriminant`),
  the per-position genotype matching (`check_genotype_combinations`) and the
  position loop (`find_matching_combinations`).

Python floats only ever hold whole counts here, so counts are `Nat`; the
proportions are modelled over `ℚ`.  Python exceptions (ZeroDivisionError,
ValueError, IndexError) are modelled by `Option`/explicit error constructors.
-/

/-- The five symbol keys every evidence-table position carries, in the
insertion order used by `AlignmentInformation.__init__`:
`{"A": 0.0, "T": 0.0, "G": 0.0, "C": 0.0, ".": 0.0}`. -/
def nucs : List Char := ['A', 'T', 'G', 'C', '.']

/-- Round-half-even of a rational, mirroring Python `round` on the exact
value (KIRtyper only rounds derived percentages; no settled claim depends on
the tie behaviour). -/
def roundHalfEven (q : ℚ) : ℤ :=
  let f := ⌊q⌋
  let r := q - f
  if r < 1/2 then f else if 1/2 < r then f + 1 else if f % 2 = 0 then f else f + 1

/-- Python `round(x, 2)`: two-decimal rounding. -/
def pyRound2 (q : ℚ) : ℚ := (roundHalfEven (q * 100) : ℚ) / 100

/-- Keys of one position's proportion-dictionary entry: the five nucleotide
keys written by `create_proportion_dictionary`, plus the synthetic
`"Present Nucleotides"` key that `ProgressiveAnalysis.__init__` later
assigns into the same inner dictionary. -/
inductive PropKey where
  | sym (c : Char)
  | presentNuc
deriving DecidableEq

/-- Values stored in a proportion-dictionary entry: a percentage (`float` in
Python) under a nucleotide key, or the list of present nucleotides under the
synthetic key. -/
inductive PropVal where
  | pct (q : ℚ)
  | plist (l : List Char)
deriving DecidableEq

/-- Python dict assignment `d[k] = v`: overwrite in place (keeping key order)
when the key exists, append the new key otherwise. -/
def dictSet (d : List (PropKey × PropVal)) (k : PropKey) (v : PropVal) :
    List (PropKey × PropVal) :=
  if d.any (fun e => decide (e.1 = k)) then
    d.map (fun e => if e.1 = k then (k, v) else e)
  else d ++ [(k, v)]

/-- Python dict lookup `d[k]` (first matching key). -/
def dictGet (d : List (PropKey × PropVal)) (k : PropKey) : Option PropVal :=
  (d.find? (fun e => decide (e.1 = k))).map Prod.snd

/-- Python `sum(self.count_dictionary[position].values())`: total tallied evidence
of one position, summed over the five symbol keys. -/
def nucTotal (cnt : Char → ℕ) : ℕ :=
  nucs.foldl (fun s c => s + cnt c) 0

/-- One position of `AlignmentInformation.create_proportion_dictionary`:
`round(count / nucleotide_count * 100, 2)` per nucleotide key.  A zero total
makes every division a Python `ZeroDivisionError`, modelled as `none`. -/
def proportionsAt (cnt : Char → ℕ) : Option (List (PropKey × PropVal)) :=
  if nucTotal cnt = 0 then none
  else some (nucs.map (fun c =>
    (PropKey.sym c, PropVal.pct (pyRound2 ((cnt c : ℚ) / (nucTotal cnt : ℚ) * 100)))))

/-- Model of `AlignmentInformation.create_proportion_dictionary`: derives the
proportion dictionary for every position of the count dictionary (whose key
set is `positions`, the exon positions, and whose per-position tallies are
`counts`).  The first zero-total position raises, aborting the whole
derivation (`none`). -/
def create_proportion_dictionary (positions : List ℕ) (counts : ℕ → Char → ℕ) :
    Option (List (ℕ × List (PropKey × PropVal))) :=
  match positions with
  | [] => some []
  | p :: rest =>
    match proportionsAt (counts p) with
    | none => none
    | some entry =>
      match create_proportion_dictionary rest counts with
      | none => none
      | some tbl => some ((p, entry) :: tbl)

/-- The `ProgressiveAnalysis.__init__` inner loop: the nucleotides of one
position's proportion entry whose proportion strictly exceeds the threshold.
At the time this runs the entry holds exactly the five percentage keys (the
synthetic key is assigned only afterwards); non-percentage entries are
skipped. -/
def presentNucleotides (entry : List (PropKey × PropVal)) (threshold : ℚ) :
    List Char :=
  entry.foldl (fun acc e =>
    match e with
    | (PropKey.sym c, PropVal.pct q) => if threshold < q then acc ++ [c] else acc
    | _ => acc) []

/-- The assignment in `ProgressiveAnalysis.__init__`:
`proportion_dictionary[position]["Present Nucleotides"] = present_nucleotides`
performed for every position of the table. -/
def annotatePresent (threshold : ℚ) (table : List (ℕ × List (PropKey × PropVal))) :
    List (ℕ × List (PropKey × PropVal)) :=
  table.map (fun pe =>
    (pe.1, dictSet pe.2 PropKey.presentNuc
      (PropVal.plist (presentNucleotides pe.2 threshold))))

/-- One allele line of the reference panel: allele id and full sequence. -/
structure Allele where
  id : String
  seq : List Char
deriving DecidableEq

/-- Python `allele.split("*")[0]` with the KIR2DL5A/KIR2DL5B alias collapse used
throughout the pipeline. -/
def locusOf (allele : String) : String :=
  let g := (allele.splitOn "*").headD ""
  if g = "KIR2DL5A" ∨ g = "KIR2DL5B" then "KIR2DL5" else g

/-- The `ProgressiveAnalysis.__init__` elimination pass over one position: for
every allele line of the reference file, if its id is still in the candidate
list and its nucleotide at `pos` is not among the present nucleotides, the id
is removed from the candidate list. -/
def progressiveStep (panel : List Allele) (keep : List String) (pos : ℕ)
    (present : List Char) : List String :=
  panel.foldl (fun ks a =>
    if a.id ∈ ks ∧ a.seq.getD pos '?' ∉ present then ks.erase a.id else ks) keep

/-- The `ProgressiveAnalysis.__init__` position loop: per table position,
compute the present nucleotides and run the elimination pass on the shared
candidate list. -/
def progressiveRun (panel : List Allele) (keep : List String) (threshold : ℚ)
    (table : List (ℕ × List (PropKey × PropVal))) : List String :=
  table.foldl (fun ks pe =>
    progressiveStep panel ks pe.1 (presentNucleotides pe.2 threshold)) keep

/-- First allele line of the panel carrying the given id (the reference file
is scanned top to bottom). -/
def findAllele : List Allele → String → Option Allele
  | [], _ => none
  | a :: rest, k => if a.id = k then some a else findAllele rest k

/-- Per-position survivor predicate: an allele id survives position `pos`
when its panel nucleotide at `pos` is among the present symbols (ids absent
from the panel are never eliminated). -/
def survivesAt (panel : List Allele) (pos : ℕ) (present : List Char)
    (k : String) : Bool :=
  match findAllele panel k with
  | some a => decide (a.seq.getD pos '?' ∈ present)
  | none => true

/-- The `CombinedAnalysis.find_matching_combinations_per_position` present-symbol
filter: the stored present nucleotides with the gap symbol removed. -/
def nonGapPresent (present : List Char) : List Char :=
  present.filter (fun c => decide (c ≠ '.'))

/-- Model of `CombinedAnalysis.is_discriminant`: true when, for at least one gene
locus, the per-allele nucleotides at the current position
(`coding_sequences_per_position`) take more than one distinct value
(`len(np.unique(...)) > 1`; the Python fall-through `None` is falsy and is
modelled as `false`). -/
def is_discriminant (coding : List (String × List (String × Char))) : Bool :=
  coding.any (fun g => decide (1 < (g.2.map Prod.snd).dedup.length))

/-- Lookup of `coding_sequences_per_position[kir_gene][allele]`. -/
def codingAt (coding : List (String × List (String × Char))) (allele : String) :
    Char :=
  match coding.find? (fun g => decide (g.1 = locusOf allele)) with
  | some g =>
    match g.2.find? (fun e => decide (e.1 = allele)) with
    | some e => e.2
    | none => '?'
  | none => '?'

/-- The `CombinedAnalysis.check_genotype_combinations` inner collection: the
nucleotides contributed at the current position by every allele of every
locus-pair of the combination. -/
def covered_nucleotides (coding : List (String × List (String × Char)))
    (combination : List (String × String)) : List Char :=
  combination.foldl (fun acc pr => acc ++ [codingAt coding pr.1, codingAt coding pr.2]) []

/-- Model of `CombinedAnalysis.check_genotype_combinations`: keeps every genotype
combination whose covered nucleotides include all present nucleotides
(`set(present_nucleotides).issubset(set(covered_nucleotides))`). -/
def check_genotype_combinations (coding : List (String × List (String × Char)))
    (present : List Char) (combos : List (List (String × String))) :
    List (List (String × String)) :=
  combos.filter (fun comb =>
    present.all (fun c => decide (c ∈ covered_nucleotides coding comb)))

/-- The `CombinedAnalysis.find_matching_combinations_per_position` position loop:
per position (given its stored present nucleotides and its per-locus coding
nucleotides), if more than one non-gap present nucleotide exists and the
position is discriminant, the matching combinations of this position are
appended to `genotype_combinations_per_position`. -/
def find_matching_combinations (combos : List (List (String × String)))
    (positions : List (List Char × List (String × List (String × Char)))) :
    List (List (List (String × String))) :=
  positions.foldl (fun acc pe =>
    if 1 < (nonGapPresent pe.1).length then
      if is_discriminant pe.2 then
        acc ++ [check_genotype_combinations pe.2 (nonGapPresent pe.1) combos]
      else acc
    else acc) []

/-- The `Read.parse_cigar` inner state machine: accumulate characters until an
`M`/`D`/`I` operator appears, then flush `[joined_digits, operator]`; a
trailing run with no operator is discarded when the loop ends. -/
def parse_cigar_go : List Char → List Char → List (String × Char)
  | _, [] => []
  | acc, ch :: rest =>
    if ch = 'M' ∨ ch = 'D' ∨ ch = 'I' then
      (String.mk acc, ch) :: parse_cigar_go [] rest
    else parse_cigar_go (acc ++ [ch]) rest

/-- Model of `Read.parse_cigar` on the character list of the CIGAR field. -/
def parse_cigar (cigar : List Char) : List (String × Char) :=
  parse_cigar_go [] cigar

/-- Decimal value of a digit run. -/
def digitsToNat (l : List Char) : ℕ :=
  l.foldl (fun n c => n * 10 + (c.toNat - '0'.toNat)) 0

/-- Python `int(s)` as used on CIGAR length fields: succeeds on a non-empty
run of decimal digits, raises `ValueError` (modelled `none`) otherwise. -/
def pyIntOfString (s : String) : Option ℕ :=
  if s.data ≠ [] ∧ s.data.all Char.isDigit then some (digitsToNat s.data) else none

/-- The `Read.get_aligned_sequence` operator loop.  `M` copies
`sequence_lst[last_position : last_position + n]` (an out-of-range access is
a Python `IndexError`, modelled `none`), `D` emits `n` gap symbols, `I`
advances the raw cursor without emitting; a sublist whose length field fails
`int()` is a `ValueError` (`none`); an operator outside `M`/`D`/`I` matches no
branch and is silently skipped (unreachable for `parse_cigar` output). -/
def alignLoop (seq : List Char) : List (String × Char) → ℕ → List Char → Option (List Char)
  | [], _, acc => some acc
  | (d, op) :: rest, lastPos, acc =>
    match pyIntOfString d with
    | none => none
    | some n =>
      if op = 'M' then
        if lastPos + n ≤ seq.length then
          alignLoop seq rest (lastPos + n) (acc ++ (seq.drop lastPos).take n)
        else none
      else if op = 'D' then
        alignLoop seq rest lastPos (acc ++ List.replicate n '.')
      else if op = 'I' then
        alignLoop seq rest (lastPos + n) acc
      else alignLoop seq rest lastPos acc

/-- Result of `Read.get_aligned_sequence`: the warning string return, the
normal `(aligned_sequence, rightmost_position)` return, or an uncaught
exception. -/
inductive AlignResult where
  | warning
  | ok (alignedSeq : List Char) (rightmost : ℕ)
  | err
deriving DecidableEq

/-- The guard `self.parsed_cigar is []` of `Read.get_aligned_sequence`: a
Python identity comparison against a fresh empty-list literal, which is
`False` for every list object the attribute can hold — including an empty
one.  The warning branch is therefore unreachable. -/
def parsedCigarIsEmptyLiteral (_ : List (String × Char)) : Bool := false

/-- Model of `Read.get_aligned_sequence`: reconstructs the aligned sequence from the
parsed CIGAR and the raw sequence, and sets
`rightmost_position = leftmost_position + len(aligned_sequence)`. -/
def get_aligned_sequence (leftmost : ℕ) (sequence : List Char)
    (parsed : List (String × Char)) : AlignResult :=
  if parsedCigarIsEmptyLiteral parsed then AlignResult.warning
  else
    match alignLoop sequence parsed 0 [] with
    | none => AlignResult.err
    | some out => AlignResult.ok out (leftmost + out.length)

/-- A well-formed operator description: the concatenation of digit-run /
operator blocks. -/
def mkCigar (ops : List (List Char × Char)) : List Char :=
  (ops.map (fun e => e.1 ++ [e.2])).flatten

/-- Specification-level reconstruction (from the spec's words): a Match
operator consumes N raw bases and emits them unchanged, a Deletion operator
emits N gap symbols without consuming raw bases, and an Insertion operator
consumes N raw bases and emits nothing. -/
def specAlignedSeq : List (List Char × Char) → List Char → List Char
  | [], _ => []
  | (d, op) :: rest, s =>
    if op = 'M' then
      s.take (digitsToNat d) ++ specAlignedSeq rest (s.drop (digitsToNat d))
    else if op = 'D' then
      List.replicate (digitsToNat d) '.' ++ specAlignedSeq rest s
    else specAlignedSeq rest (s.drop (digitsToNat d))

/-- Sum of the length fields of all blocks carrying the given operator. -/
def opSum (op : Char) (ops : List (List Char × Char)) : ℕ :=
  (ops.map (fun e => if e.2 = op then digitsToNat e.1 else 0)).sum

/-- Well-formedness of one CIGAR block: a non-empty digit run and an operator
among `M`, `D`, `I`. -/
def wfBlock (e : List Char × Char) : Prop :=
  e.1 ≠ [] ∧ e.1.all Char.isDigit = true ∧ (e.2 = 'M' ∨ e.2 = 'D' ∨ e.2 = 'I')

/-- The fields of a `Read` instance consumed by
`AlignmentInformation.update_count_dictionary`: the pairing id, the leftmost
reference position and the reconstructed aligned sequence. -/
structure ReadRec where
  id : String
  leftmost : ℕ
  alignedSeq : List Char
deriving DecidableEq

/-- The value `rightmost_position = leftmost_position + len(aligned_sequence)` as set
by `Read.get_aligned_sequence` before the record reaches the accumulator. -/
def rightmostOf (r : ReadRec) : ℕ := r.leftmost + r.alignedSeq.length

/-- State of the evidence accumulator: the per-position per-symbol tallies of
`count_dictionary` and the `processed_reads_dictionary` memo mapping a
pairing id to the `[leftmost, rightmost)` range first recorded under it. -/
structure AccState where
  counts : ℕ → Char → ℕ
  processed : List (String × (ℕ × ℕ))

/-- Lookup in the processed-reads memo (first matching key). -/
def lookupProc : List (String × (ℕ × ℕ)) → String → Option (ℕ × ℕ)
  | [], _ => none
  | e :: rest, k => if e.1 = k then some e.2 else lookupProc rest k

/-- Python `self.count_dictionary[position][nucleotide] += 1`. -/
def bump (counts : ℕ → Char → ℕ) (pos : ℕ) (c : Char) : ℕ → Char → ℕ :=
  fun p n => if p = pos ∧ n = c then counts p n + 1 else counts p n

/-- The tallying walk of `update_count_dictionary`: symbol by symbol along
the aligned sequence starting at the leftmost position; an `N` contributes
nothing, and a symbol is tallied only when its position is a key of the
count dictionary (an exon position) and is not among the excluded
(mate-overlap) positions. -/
def tally (exonPos : List ℕ) (excl : ℕ → Bool) :
    (ℕ → Char → ℕ) → ℕ → List Char → ℕ → Char → ℕ
  | counts, _, [] => counts
  | counts, pos, c :: rest =>
    tally exonPos excl
      (if c = 'N' then counts
       else if pos ∈ exonPos ∧ excl pos = false then bump counts pos c
       else counts)
      (pos + 1) rest

/-- Model of `AlignmentInformation.update_count_dictionary`: if the pairing id was
already processed, exclude the intersection of this record's
`[leftmost, rightmost)` range with the memoized range (the memo itself is
left untouched); otherwise memoize this record's range and exclude nothing.
Then tally the aligned sequence. -/
def update_count_dictionary (exonPos : List ℕ) (st : AccState) (r : ReadRec) :
    AccState :=
  match lookupProc st.processed r.id with
  | some pr =>
    { st with
      counts := tally exonPos
        (fun p => decide ((r.leftmost ≤ p ∧ p < rightmostOf r) ∧ pr.1 ≤ p ∧ p < pr.2))
        st.counts r.leftmost r.alignedSeq }
  | none =>
    { counts := tally exonPos (fun _ => false) st.counts r.leftmost r.alignedSeq
      processed := st.processed ++ [(r.id, (r.leftmost, rightmostOf r))] }

/-- Processing a batch of records in arrival order. -/
def processReads (exonPos : List ℕ) (st : AccState) (reads : List ReadRec) :
    AccState :=
  reads.foldl (update_count_dictionary exonPos) st

/-- Total tallied evidence at one position: the sum of the five symbol
tallies (the value `create_proportion_dictionary` divides by). -/
def totalAt (counts : ℕ → Char → ℕ) (p : ℕ) : ℕ :=
  counts p 'A' + counts p 'T' + counts p 'G' + counts p 'C' + counts p '.'

theorem dedup_length_le_one_of_const {α : Type} [DecidableEq α] (l : List α)
    (h : ∀ x ∈ l, ∀ y ∈ l, x = y) : l.dedup.length ≤ 1 := by
  match hd : l.dedup with
  | [] => simp
  | [a] => simp
  | a :: b :: t =>
    exfalso
    have ha : a ∈ l.dedup := by rw [hd]; exact List.mem_cons_self _ _
    have hb : b ∈ l.dedup := by rw [hd]; simp
    have hab : a = b := h a (List.mem_dedup.mp ha) b (List.mem_dedup.mp hb)
    have hnd : l.dedup.Nodup := List.nodup_dedup l
    rw [hd] at hnd
    exact (List.nodup_cons.mp hnd).1 (by rw [hab]; exact List.mem_cons_self _ _)

theorem is_discriminant_false_of_agree (coding : List (String × List (String × Char)))
    (h : ∀ g ∈ coding, ∀ x ∈ g.2, ∀ y ∈ g.2, x.2 = y.2) :
    is_discriminant coding = false := by
  unfold is_discriminant
  rw [List.any_eq_false]
  intro g hg
  simp only [decide_eq_true_eq, not_lt]
  apply dedup_length_le_one_of_const
  intro x hx y hy
  rcases List.mem_map.mp hx with ⟨x', hx', rfl⟩
  rcases List.mem_map.mp hy with ⟨y', hy', rfl⟩
  exact h g hg x' hx' y' hy'

theorem find_matching_go (combos : List (List (String × String))) :
    ∀ (positions : List (List Char × List (String × List (String × Char))))
      (acc : List (List (List (String × String)))),
      positions.foldl (fun acc pe =>
        if 1 < (nonGapPresent pe.1).length then
          if is_discriminant pe.2 then
            acc ++ [check_genotype_combinations pe.2 (nonGapPresent pe.1) combos]
          else acc
        else acc) acc =
      acc ++ (positions.filter (fun pe =>
          decide (1 < (nonGapPresent pe.1).length) && is_discriminant pe.2)).map
        (fun pe => check_genotype_combinations pe.2 (nonGapPresent pe.1) combos) := by
  intro positions
  induction positions with
  | nil => intro acc; simp
  | cons pe t ih =>
    intro acc
    by_cases h1 : 1 < (nonGapPresent pe.1).length
    · by_cases h2 : is_discriminant pe.2 = true
      · simp [List.foldl_cons, h1, h2, List.filter_cons, ih]
      · simp [List.foldl_cons, h1, h2, List.filter_cons, ih]
    · simp [List.foldl_cons, h1, List.filter_cons, ih]

/-- C3 (counterexample): a position can be discriminant — the two surviving
KIR2DL1 alleles carry `A` and `G` — and still contribute no matching
combination set, because only one non-gap present symbol is stored for the
position; the claim's "contributes exactly when discriminant" is false. -/
theorem C3_discriminant_position_skipped :
    is_discriminant [("KIR2DL1", [("KIR2DL1*001", 'A'), ("KIR2DL1*002", 'G')])] = true ∧
    find_matching_combinations [[("KIR2DL1*001", "KIR2DL1*002")]]
      [(['A'], [("KIR2DL1", [("KIR2DL1*001", 'A'), ("KIR2DL1*002", 'G')])])] = [] := by
  constructor
  · decide
  · decide

/-- C3 (amended): a position examined by the Combinatorial Matcher
contributes a per-position matching-combination set exactly when it stores
more than one non-gap present symbol AND it is discriminant; and a position
where the surviving alleles of every locus all agree is never discriminant,
hence skipped. -/
theorem C3_contribution_characterization (combos : List (List (String × String)))
    (positions : List (List Char × List (String × List (String × Char)))) :
    find_matching_combinations combos positions =
      (positions.filter (fun pe =>
          decide (1 < (nonGapPresent pe.1).length) && is_discriminant pe.2)).map
        (fun pe => check_genotype_combinations pe.2 (nonGapPresent pe.1) combos) ∧
    ∀ coding : List (String × List (String × Char)),
      (∀ g ∈ coding, ∀ x ∈ g.2, ∀ y ∈ g.2, x.2 = y.2) →
      is_discriminant coding = false := by
  constructor
  · unfold find_matching_combinations
    rw [find_matching_go]
    simp
  · exact is_discriminant_false_of_agree

/-- C5: at any position, a genotype combination is kept by
`check_genotype_combinations` exactly when every non-gap present symbol is
among the nucleotides covered by the alleles of the combination's locus
pairs; combinations covering extra, unobserved nucleotides are tolerated. -/
theorem C5_matching_iff_subset (coding : List (String × List (String × Char)))
    (present : List Char) (combos : List (List (String × String)))
    (comb : List (String × String)) :
    comb ∈ check_genotype_combinations coding (nonGapPresent present) combos ↔
      comb ∈ combos ∧
        ∀ c ∈ nonGapPresent present, c ∈ covered_nucleotides coding comb := by
  simp [check_genotype_combinations, List.mem_filter, List.all_eq_true]

theorem digit_not_op {c : Char} (h : c.isDigit = true) :
    ¬(c = 'M' ∨ c = 'D' ∨ c = 'I') := by
  rintro (rfl | rfl | rfl) <;> exact absurd h (by decide)

theorem parse_cigar_go_cons (acc : List Char) (ch : Char) (rest : List Char) :
    parse_cigar_go acc (ch :: rest) =
      if ch = 'M' ∨ ch = 'D' ∨ ch = 'I' then
        (String.mk acc, ch) :: parse_cigar_go [] rest
      else parse_cigar_go (acc ++ [ch]) rest := rfl

theorem parse_cigar_go_block (d : List Char) (hd : d.all Char.isDigit = true)
    (op : Char) (hop : op = 'M' ∨ op = 'D' ∨ op = 'I') (rest : List Char) :
    ∀ acc, parse_cigar_go acc (d ++ op :: rest) =
      (String.mk (acc ++ d), op) :: parse_cigar_go [] rest := by
  induction d with
  | nil =>
    intro acc
    rw [List.nil_append, parse_cigar_go_cons, if_pos hop, List.append_nil]
  | cons c d' ih =>
    intro acc
    have hc : c.isDigit = true := List.all_eq_true.mp hd c (List.mem_cons_self _ _)
    have hd' : d'.all Char.isDigit = true := by
      rw [List.all_eq_true]
      intro x hx
      exact List.all_eq_true.mp hd x (List.mem_cons_of_mem _ hx)
    rw [List.cons_append, parse_cigar_go_cons, if_neg (digit_not_op hc),
      ih hd' (acc ++ [c]), List.append_assoc, List.singleton_append]

theorem parse_cigar_mkCigar (ops : List (List Char × Char))
    (h : ∀ e ∈ ops, wfBlock e) :
    parse_cigar (mkCigar ops) = ops.map (fun e => (String.mk e.1, e.2)) := by
  induction ops with
  | nil => rfl
  | cons e t ih =>
    obtain ⟨h1, h2, h3⟩ := h e (List.mem_cons_self _ _)
    have ht : ∀ x ∈ t, wfBlock x := fun x hx => h x (List.mem_cons_of_mem _ hx)
    unfold parse_cigar mkCigar
    rw [List.map_cons, List.flatten_cons, List.append_assoc, List.singleton_append,
      parse_cigar_go_block e.1 h2 e.2 h3 _ [], List.nil_append, List.map_cons]
    exact congrArg _ (ih ht)

theorem pyIntOfString_mk (d : List Char) (h1 : d ≠ [])
    (h2 : d.all Char.isDigit = true) :
    pyIntOfString (String.mk d) = some (digitsToNat d) := by
  have hdata : (String.mk d).data = d := rfl
  rw [pyIntOfString, hdata, if_pos ⟨h1, h2⟩]

theorem opSum_cons (op : Char) (e : List Char × Char) (t : List (List Char × Char)) :
    opSum op (e :: t) = (if e.2 = op then digitsToNat e.1 else 0) + opSum op t := by
  simp [opSum]

theorem alignLoop_cons (seq : List Char) (d : String) (op : Char)
    (rest : List (String × Char)) (lastPos : ℕ) (acc : List Char) :
    alignLoop seq ((d, op) :: rest) lastPos acc =
      match pyIntOfString d with
      | none => none
      | some n =>
        if op = 'M' then
          if lastPos + n ≤ seq.length then
            alignLoop seq rest (lastPos + n) (acc ++ (seq.drop lastPos).take n)
          else none
        else if op = 'D' then
          alignLoop seq rest lastPos (acc ++ List.replicate n '.')
        else if op = 'I' then alignLoop seq rest (lastPos + n) acc
        else alignLoop seq rest lastPos acc := rfl

theorem specAlignedSeq_cons (d : List Char) (op : Char)
    (rest : List (List Char × Char)) (s : List Char) :
    specAlignedSeq ((d, op) :: rest) s =
      if op = 'M' then
        s.take (digitsToNat d) ++ specAlignedSeq rest (s.drop (digitsToNat d))
      else if op = 'D' then
        List.replicate (digitsToNat d) '.' ++ specAlignedSeq rest s
      else specAlignedSeq rest (s.drop (digitsToNat d)) := rfl

theorem alignLoop_spec (seq : List Char) :
    ∀ (ops : List (List Char × Char)), (∀ e ∈ ops, wfBlock e) →
    ∀ (lastPos : ℕ) (acc : List Char),
      lastPos + (opSum 'M' ops + opSum 'I' ops) ≤ seq.length →
      alignLoop seq (ops.map (fun e => (String.mk e.1, e.2))) lastPos acc =
        some (acc ++ specAlignedSeq ops (seq.drop lastPos)) := by
  intro ops
  induction ops with
  | nil => intro _ lastPos acc _; simp [alignLoop, specAlignedSeq]
  | cons e t ih =>
    intro h lastPos acc hlen
    obtain ⟨h1, h2, h3⟩ := h e (List.mem_cons_self _ _)
    have ht : ∀ x ∈ t, wfBlock x := fun x hx => h x (List.mem_cons_of_mem _ hx)
    rw [List.map_cons]
    rw [opSum_cons, opSum_cons] at hlen
    rcases h3 with hop | hop | hop <;>
      rw [hop] at hlen <;>
      simp only [Char.reduceEq, reduceIte] at hlen
    · -- Match block
      have hbound : lastPos + digitsToNat e.1 ≤ seq.length := by omega
      rw [alignLoop_cons, pyIntOfString_mk e.1 h1 h2]
      simp only [hop, Char.reduceEq, reduceIte]
      rw [if_pos hbound, ih ht (lastPos + digitsToNat e.1) _ (by omega)]
      have hsp : specAlignedSeq (e :: t) (seq.drop lastPos) =
          (seq.drop lastPos).take (digitsToNat e.1) ++
            specAlignedSeq t ((seq.drop lastPos).drop (digitsToNat e.1)) := by
        rw [show e = (e.1, e.2) from rfl, specAlignedSeq_cons, hop]
        simp only [Char.reduceEq, reduceIte]
      rw [hsp, List.drop_drop, List.append_assoc]
    · -- Deletion block
      rw [alignLoop_cons, pyIntOfString_mk e.1 h1 h2]
      simp only [hop, Char.reduceEq, reduceIte]
      rw [ih ht lastPos _ (by omega)]
      have hsp : specAlignedSeq (e :: t) (seq.drop lastPos) =
          List.replicate (digitsToNat e.1) '.' ++
            specAlignedSeq t (seq.drop lastPos) := by
        rw [show e = (e.1, e.2) from rfl, specAlignedSeq_cons, hop]
        simp only [Char.reduceEq, reduceIte]
      rw [hsp, List.append_assoc]
    · -- Insertion block
      rw [alignLoop_cons, pyIntOfString_mk e.1 h1 h2]
      simp only [hop, Char.reduceEq, reduceIte]
      rw [ih ht (lastPos + digitsToNat e.1) _ (by omega)]
      have hsp : specAlignedSeq (e :: t) (seq.drop lastPos) =
          specAlignedSeq t ((seq.drop lastPos).drop (digitsToNat e.1)) := by
        rw [show e = (e.1, e.2) from rfl, specAlignedSeq_cons, hop]
        simp only [Char.reduceEq, reduceIte]
      rw [hsp, List.drop_drop]

theorem specAlignedSeq_length :
    ∀ (ops : List (List Char × Char)) (s : List Char),
      (∀ e ∈ ops, wfBlock e) →
      opSum 'M' ops + opSum 'I' ops ≤ s.length →
      (specAlignedSeq ops s).length = opSum 'M' ops + opSum 'D' ops := by
  intro ops
  induction ops with
  | nil => intro s _ _; simp [specAlignedSeq, opSum]
  | cons e t ih =>
    intro s h hlen
    obtain ⟨h1, h2, h3⟩ := h e (List.mem_cons_self _ _)
    have ht : ∀ x ∈ t, wfBlock x := fun x hx => h x (List.mem_cons_of_mem _ hx)
    rw [opSum_cons, opSum_cons] at hlen
    rw [opSum_cons, opSum_cons]
    rcases h3 with hop | hop | hop <;>
      rw [hop] at hlen ⊢ <;>
      simp only [Char.reduceEq, reduceIte] at hlen ⊢
    · -- Match block
      have hsp : specAlignedSeq (e :: t) s =
          s.take (digitsToNat e.1) ++ specAlignedSeq t (s.drop (digitsToNat e.1)) := by
        rw [show e = (e.1, e.2) from rfl, specAlignedSeq_cons, hop]
        simp only [Char.reduceEq, reduceIte]
      have hlen' : opSum 'M' t + opSum 'I' t ≤ (s.drop (digitsToNat e.1)).length := by
        rw [List.length_drop]; omega
      rw [hsp, List.length_append, List.length_take, ih _ ht hlen']
      have hmin : min (digitsToNat e.1) s.length = digitsToNat e.1 := by omega
      rw [hmin]
      omega
    · -- Deletion block
      have hsp : specAlignedSeq (e :: t) s =
          List.replicate (digitsToNat e.1) '.' ++ specAlignedSeq t s := by
        rw [show e = (e.1, e.2) from rfl, specAlignedSeq_cons, hop]
        simp only [Char.reduceEq, reduceIte]
      rw [hsp, List.length_append, List.length_replicate, ih _ ht (by omega)]
      omega
    · -- Insertion block
      have hsp : specAlignedSeq (e :: t) s =
          specAlignedSeq t (s.drop (digitsToNat e.1)) := by
        rw [show e = (e.1, e.2) from rfl, specAlignedSeq_cons, hop]
        simp only [Char.reduceEq, reduceIte]
      have hlen' : opSum 'M' t + opSum 'I' t ≤ (s.drop (digitsToNat e.1)).length := by
        rw [List.length_drop]; omega
      rw [hsp, ih _ ht hlen']
      omega

instance wfBlockDecidable (e : List Char × Char) : Decidable (wfBlock e) := by
  unfold wfBlock
  infer_instance

/-- C6: for an operator description alternating digit runs with operators
from M, D, I, and a raw sequence holding at least (sum of Match lengths) +
(sum of Insertion lengths) bases, the reconstructed alignment succeeds, its
emitted sequence follows the spec (Match bases copied unchanged, Deletions
as gaps, Insertions dropped), its length is (sum of Match lengths) + (sum of
Deletion lengths) — Insertion lengths never contribute — and the rightmost
position is the leftmost position plus the emitted length. -/
theorem C6_reconstructed_length (leftmost : ℕ) (seq : List Char)
    (ops : List (List Char × Char)) (h : ∀ e ∈ ops, wfBlock e)
    (hlen : opSum 'M' ops + opSum 'I' ops ≤ seq.length) :
    get_aligned_sequence leftmost seq (parse_cigar (mkCigar ops)) =
      AlignResult.ok (specAlignedSeq ops seq)
        (leftmost + (specAlignedSeq ops seq).length) ∧
    (specAlignedSeq ops seq).length = opSum 'M' ops + opSum 'D' ops := by
  have hal := alignLoop_spec seq ops h 0 [] (by simpa using hlen)
  constructor
  · rw [parse_cigar_mkCigar ops h]
    unfold get_aligned_sequence parsedCigarIsEmptyLiteral
    simp only [Bool.false_eq_true, if_false]
    rw [hal]
    simp
  · exact specAlignedSeq_length ops seq h hlen

/-- Witness for C6 at the CIGAR description `2M1D1I1M` over raw bases
`ACGT`: the emitted sequence is `AC.T`, of length 3 + 1. -/
theorem C6_reconstructed_length_witness :
    get_aligned_sequence 0 ['A', 'C', 'G', 'T']
        (parse_cigar (mkCigar [(['2'], 'M'), (['1'], 'D'), (['1'], 'I'), (['1'], 'M')])) =
      AlignResult.ok
        (specAlignedSeq [(['2'], 'M'), (['1'], 'D'), (['1'], 'I'), (['1'], 'M')]
          ['A', 'C', 'G', 'T'])
        (0 + (specAlignedSeq [(['2'], 'M'), (['1'], 'D'), (['1'], 'I'), (['1'], 'M')]
          ['A', 'C', 'G', 'T']).length) ∧
    (specAlignedSeq [(['2'], 'M'), (['1'], 'D'), (['1'], 'I'), (['1'], 'M')]
        ['A', 'C', 'G', 'T']).length =
      opSum 'M' [(['2'], 'M'), (['1'], 'D'), (['1'], 'I'), (['1'], 'M')] +
        opSum 'D' [(['2'], 'M'), (['1'], 'D'), (['1'], 'I'), (['1'], 'M')] :=
  C6_reconstructed_length 0 ['A', 'C', 'G', 'T']
    [(['2'], 'M'), (['1'], 'D'), (['1'], 'I'), (['1'], 'M')]
    (by decide) (by decide)

/-- C7 (code bug): the warning branch of `get_aligned_sequence` is
unreachable, because `self.parsed_cigar is []` is a Python identity test
against a fresh list literal and is always false (conjunct 1); an empty
operator description therefore silently yields a zero-length alignment with
`rightmost = leftmost` instead of the documented warning (conjunct 2); and
an unrecognized operator such as `S` in `5S10M` is folded into the digit run
by `parse_cigar`, so `int("5S10")` raises an uncaught `ValueError`, aborting
the batch rather than skipping the record (conjunct 3). -/
theorem C7_malformed_cigar_handling :
    (∀ (leftmost : ℕ) (seq : List Char) (parsed : List (String × Char)),
      get_aligned_sequence leftmost seq parsed ≠ AlignResult.warning) ∧
    get_aligned_sequence 7 ['A', 'C'] (parse_cigar []) = AlignResult.ok [] 7 ∧
    (parse_cigar ['5', 'S', '1', '0', 'M'] = [("5S10", 'M')] ∧
      get_aligned_sequence 0 (List.replicate 20 'A')
        (parse_cigar ['5', 'S', '1', '0', 'M']) = AlignResult.err) := by
  refine ⟨?_, by decide, by decide, by decide⟩
  intro lm seq parsed
  unfold get_aligned_sequence parsedCigarIsEmptyLiteral
  simp only [Bool.false_eq_true, if_false]
  cases alignLoop seq parsed 0 [] <;> simp

theorem create_proportion_dictionary_cons (q : ℕ) (rest : List ℕ)
    (counts : ℕ → Char → ℕ) :
    create_proportion_dictionary (q :: rest) counts =
      match proportionsAt (counts q) with
      | none => none
      | some entry =>
        match create_proportion_dictionary rest counts with
        | none => none
        | some tbl => some ((q, entry) :: tbl) := rfl

/-- C1 (code bug): any position of the count dictionary whose five tallies
sum to zero makes `create_proportion_dictionary` divide by zero — the
derivation raises (modelled `none`), aborting the run, instead of flagging
the position's proportions with an undefined sentinel that would propagate
as an empty present-symbol set. -/
theorem C1_zero_total_position_raises (positions : List ℕ)
    (counts : ℕ → Char → ℕ) (p : ℕ) (hmem : p ∈ positions)
    (hzero : nucTotal (counts p) = 0) :
    create_proportion_dictionary positions counts = none := by
  induction positions with
  | nil => cases hmem
  | cons q rest ih =>
    rw [create_proportion_dictionary_cons]
    rcases List.mem_cons.mp hmem with rfl | hmem'
    · rw [show proportionsAt (counts p) = none from by rw [proportionsAt, if_pos hzero]]
    · cases hq : proportionsAt (counts q)
      · rfl
      · rw [ih hmem']

/-- Witness for C1: a single exon position with no tallied evidence at all
aborts the proportion derivation. -/
theorem C1_zero_total_position_raises_witness :
    0 ∈ [0] ∧ nucTotal ((fun _ _ => 0) 0) = 0 ∧
    create_proportion_dictionary [0] (fun _ _ => 0) = none :=
  ⟨by decide, by decide,
    C1_zero_total_position_raises [0] (fun _ _ => 0) 0 (by decide) (by decide)⟩

theorem tally_cons (exonPos : List ℕ) (excl : ℕ → Bool) (counts : ℕ → Char → ℕ)
    (pos : ℕ) (ch : Char) (rest : List Char) :
    tally exonPos excl counts pos (ch :: rest) =
      tally exonPos excl
        (if ch = 'N' then counts
         else if pos ∈ exonPos ∧ excl pos = false then bump counts pos ch
         else counts) (pos + 1) rest := rfl

theorem tally_apply (exonPos : List ℕ) (excl : ℕ → Bool) :
    ∀ (seq : List Char) (pos : ℕ) (counts : ℕ → Char → ℕ) (p : ℕ) (c : Char),
      tally exonPos excl counts pos seq p c =
        counts p c +
          (if pos ≤ p ∧ p < pos + seq.length ∧ seq.getD (p - pos) '?' = c ∧
              c ≠ 'N' ∧ p ∈ exonPos ∧ excl p = false then 1 else 0) := by
  intro seq
  induction seq with
  | nil =>
    intro pos counts p c
    rw [show tally exonPos excl counts pos [] = counts from rfl]
    have hno : ¬(pos ≤ p ∧ p < pos + ([] : List Char).length ∧
        ([] : List Char).getD (p - pos) '?' = c ∧
        c ≠ 'N' ∧ p ∈ exonPos ∧ excl p = false) := by
      rintro ⟨h1, h2, -⟩
      simp only [List.length_nil] at h2
      omega
    rw [if_neg hno]
    omega
  | cons ch rest ih =>
    intro pos counts p c
    rw [tally_cons, ih]
    by_cases hp : p = pos
    · subst hp
      have htail : ¬(p + 1 ≤ p ∧ p < p + 1 + rest.length ∧
          rest.getD (p - (p + 1)) '?' = c ∧ c ≠ 'N' ∧ p ∈ exonPos ∧
          excl p = false) := by
        rintro ⟨h1, -⟩
        omega
      rw [if_neg htail]
      have hgd : (ch :: rest).getD (p - p) '?' = ch := by
        rw [Nat.sub_self, List.getD_cons_zero]
      by_cases hcc : ch = c ∧ c ≠ 'N' ∧ p ∈ exonPos ∧ excl p = false
      · obtain ⟨hc1, hc2, hc3, hc4⟩ := hcc
        have hcons : p ≤ p ∧ p < p + (ch :: rest).length ∧
            (ch :: rest).getD (p - p) '?' = c ∧ c ≠ 'N' ∧ p ∈ exonPos ∧
            excl p = false :=
          ⟨le_refl _, by simp only [List.length_cons]; omega,
            by rw [hgd]; exact hc1, hc2, hc3, hc4⟩
        rw [if_pos hcons]
        have hN : ch ≠ 'N' := by rw [hc1]; exact hc2
        have hupd : (if ch = 'N' then counts
            else if p ∈ exonPos ∧ excl p = false then bump counts p ch
            else counts) = bump counts p ch := by
          rw [if_neg hN, if_pos ⟨hc3, hc4⟩]
        rw [hupd, bump]
        have hb : (if p = p ∧ c = ch then counts p c + 1 else counts p c) =
            counts p c + 1 := if_pos ⟨rfl, hc1.symm⟩
        rw [hb]
      · have hcons : ¬(p ≤ p ∧ p < p + (ch :: rest).length ∧
            (ch :: rest).getD (p - p) '?' = c ∧ c ≠ 'N' ∧ p ∈ exonPos ∧
            excl p = false) := by
          rintro ⟨-, -, hg, h2, h3, h4⟩
          rw [hgd] at hg
          exact hcc ⟨hg, h2, h3, h4⟩
        rw [if_neg hcons]
        have hbase : (if ch = 'N' then counts
            else if p ∈ exonPos ∧ excl p = false then bump counts p ch
            else counts) p c = counts p c := by
          by_cases hN : ch = 'N'
          · rw [if_pos hN]
          · rw [if_neg hN]
            by_cases hE : p ∈ exonPos ∧ excl p = false
            · rw [if_pos hE, bump]
              have hne : ¬(p = p ∧ c = ch) := by
                rintro ⟨-, hcch⟩
                exact hcc ⟨hcch.symm, fun hcn => hN (hcch.symm.trans hcn),
                  hE.1, hE.2⟩
              rw [if_neg hne]
            · rw [if_neg hE]
        rw [hbase]
    · have hbase : (if ch = 'N' then counts
          else if pos ∈ exonPos ∧ excl pos = false then bump counts pos ch
          else counts) p c = counts p c := by
        by_cases hN : ch = 'N'
        · rw [if_pos hN]
        · rw [if_neg hN]
          by_cases hE : pos ∈ exonPos ∧ excl pos = false
          · rw [if_pos hE, bump]
            have hne : ¬(p = pos ∧ c = ch) := by
              rintro ⟨h, -⟩
              exact hp h
            rw [if_neg hne]
          · rw [if_neg hE]
      rw [hbase]
      have hiff : (pos + 1 ≤ p ∧ p < pos + 1 + rest.length ∧
          rest.getD (p - (pos + 1)) '?' = c ∧ c ≠ 'N' ∧ p ∈ exonPos ∧
          excl p = false) ↔
          (pos ≤ p ∧ p < pos + (ch :: rest).length ∧
          (ch :: rest).getD (p - pos) '?' = c ∧ c ≠ 'N' ∧ p ∈ exonPos ∧
          excl p = false) := by
        constructor
        · rintro ⟨h1, h2, hg, hrest⟩
          refine ⟨by omega, by simp only [List.length_cons]; omega, ?_, hrest⟩
          rw [show p - pos = (p - (pos + 1)) + 1 from by omega,
            List.getD_cons_succ]
          exact hg
        · rintro ⟨h1, h2, hg, hrest⟩
          have h1' : pos + 1 ≤ p := by
            rcases Nat.lt_or_ge pos p with hlt | hge
            · omega
            · exact absurd (Nat.le_antisymm h1 hge).symm hp
          simp only [List.length_cons] at h2
          refine ⟨h1', by omega, ?_, hrest⟩
          rw [show p - pos = (p - (pos + 1)) + 1 from by omega,
            List.getD_cons_succ] at hg
          exact hg
      rw [if_congr hiff rfl rfl]

theorem tally_apply_zero (exonPos : List ℕ) (excl : ℕ → Bool) (counts : ℕ → Char → ℕ)
    (pos : ℕ) (seq : List Char) (p : ℕ) (x : Char)
    (h : ¬(pos ≤ p ∧ p < pos + seq.length ∧ seq.getD (p - pos) '?' = x ∧
        x ≠ 'N' ∧ p ∈ exonPos ∧ excl p = false)) :
    tally exonPos excl counts pos seq p x = counts p x := by
  rw [tally_apply, if_neg h]
  omega

theorem totalAt_tally_skip (exonPos : List ℕ) (excl : ℕ → Bool)
    (counts : ℕ → Char → ℕ) (pos : ℕ) (seq : List Char) (p : ℕ)
    (h : seq.getD (p - pos) '?' = 'N' ∨ excl p = true ∨
      ¬(pos ≤ p ∧ p < pos + seq.length) ∨ p ∉ exonPos) :
    totalAt (tally exonPos excl counts pos seq) p = totalAt counts p := by
  have hz : ∀ x : Char, tally exonPos excl counts pos seq p x = counts p x := by
    intro x
    apply tally_apply_zero
    rintro ⟨h1, h2, hg, hx, h5, h6⟩
    rcases h with hN | hexcl | hrange | hout
    · exact hx (hg.symm.trans hN)
    · rw [h6] at hexcl
      cases hexcl
    · exact hrange ⟨h1, h2⟩
    · exact hout h5
  unfold totalAt
  rw [hz, hz, hz, hz, hz]

theorem totalAt_tally_in (exonPos : List ℕ) (excl : ℕ → Bool)
    (counts : ℕ → Char → ℕ) (pos : ℕ) (seq : List Char) (p : ℕ) (c : Char)
    (hg : seq.getD (p - pos) '?' = c) (hmem : c ∈ nucs)
    (hin : pos ≤ p ∧ p < pos + seq.length) (hex : p ∈ exonPos)
    (hexcl : excl p = false) :
    totalAt (tally exonPos excl counts pos seq) p = totalAt counts p + 1 := by
  have hone : ∀ x : Char, x = c →
      tally exonPos excl counts pos seq p x = counts p x + 1 := by
    intro x hx
    subst hx
    rw [tally_apply, if_pos ⟨hin.1, hin.2, hg, by
      rintro rfl
      revert hmem
      decide, hex, hexcl⟩]
  have hz : ∀ x : Char, x ≠ c →
      tally exonPos excl counts pos seq p x = counts p x := by
    intro x hx
    apply tally_apply_zero
    rintro ⟨-, -, hgx, -⟩
    exact hx (hgx.symm.trans hg)
  unfold totalAt
  have hcs : c = 'A' ∨ c = 'T' ∨ c = 'G' ∨ c = 'C' ∨ c = '.' := by
    simpa [nucs] using hmem
  rcases hcs with rfl | rfl | rfl | rfl | rfl
  · rw [hone 'A' rfl, hz 'T' (by decide), hz 'G' (by decide), hz 'C' (by decide),
      hz '.' (by decide)]
    omega
  · rw [hz 'A' (by decide), hone 'T' rfl, hz 'G' (by decide), hz 'C' (by decide),
      hz '.' (by decide)]
    omega
  · rw [hz 'A' (by decide), hz 'T' (by decide), hone 'G' rfl, hz 'C' (by decide),
      hz '.' (by decide)]
    omega
  · rw [hz 'A' (by decide), hz 'T' (by decide), hz 'G' (by decide), hone 'C' rfl,
      hz '.' (by decide)]
    omega
  · rw [hz 'A' (by decide), hz 'T' (by decide), hz 'G' (by decide),
      hz 'C' (by decide), hone '.' rfl]
    omega

theorem lookupProc_append (l m : List (String × (ℕ × ℕ))) (k : String) :
    lookupProc (l ++ m) k =
      match lookupProc l k with
      | some v => some v
      | none => lookupProc m k := by
  induction l with
  | nil => rfl
  | cons e rest ih =>
    rw [List.cons_append]
    by_cases h : e.1 = k
    · rw [show lookupProc (e :: (rest ++ m)) k = if e.1 = k then some e.2
          else lookupProc (rest ++ m) k from rfl, if_pos h,
        show lookupProc (e :: rest) k = if e.1 = k then some e.2
          else lookupProc rest k from rfl, if_pos h]
    · rw [show lookupProc (e :: (rest ++ m)) k = if e.1 = k then some e.2
          else lookupProc (rest ++ m) k from rfl, if_neg h,
        show lookupProc (e :: rest) k = if e.1 = k then some e.2
          else lookupProc rest k from rfl, if_neg h, ih]

theorem update_processed_found (exonPos : List ℕ) (st : AccState) (r : ReadRec)
    (pr : ℕ × ℕ) (h : lookupProc st.processed r.id = some pr) :
    (update_count_dictionary exonPos st r).processed = st.processed := by
  unfold update_count_dictionary
  rw [h]

theorem update_processed_fresh (exonPos : List ℕ) (st : AccState) (r : ReadRec)
    (h : lookupProc st.processed r.id = none) :
    (update_count_dictionary exonPos st r).processed =
      st.processed ++ [(r.id, (r.leftmost, rightmostOf r))] := by
  unfold update_count_dictionary
  rw [h]

theorem update_counts_found (exonPos : List ℕ) (st : AccState) (r : ReadRec)
    (pr : ℕ × ℕ) (h : lookupProc st.processed r.id = some pr) :
    (update_count_dictionary exonPos st r).counts =
      tally exonPos
        (fun p => decide ((r.leftmost ≤ p ∧ p < rightmostOf r) ∧ pr.1 ≤ p ∧ p < pr.2))
        st.counts r.leftmost r.alignedSeq := by
  unfold update_count_dictionary
  rw [h]

theorem update_counts_fresh (exonPos : List ℕ) (st : AccState) (r : ReadRec)
    (h : lookupProc st.processed r.id = none) :
    (update_count_dictionary exonPos st r).counts =
      tally exonPos (fun _ => false) st.counts r.leftmost r.alignedSeq := by
  unfold update_count_dictionary
  rw [h]

theorem lookupProc_update_self (exonPos : List ℕ) (st : AccState) (r : ReadRec)
    (h : lookupProc st.processed r.id = none) :
    lookupProc (update_count_dictionary exonPos st r).processed r.id =
      some (r.leftmost, rightmostOf r) := by
  rw [update_processed_fresh exonPos st r h, lookupProc_append, h]
  rw [show lookupProc [(r.id, (r.leftmost, rightmostOf r))] r.id =
    if r.id = r.id then some (r.leftmost, rightmostOf r) else none from rfl,
    if_pos rfl]

theorem lookupProc_update_ne (exonPos : List ℕ) (st : AccState) (r : ReadRec)
    (i : String) (h : r.id ≠ i) :
    lookupProc (update_count_dictionary exonPos st r).processed i =
      lookupProc st.processed i := by
  cases hl : lookupProc st.processed r.id
  · rw [update_processed_fresh exonPos st r hl, lookupProc_append]
    cases hi : lookupProc st.processed i
    · rw [show lookupProc [(r.id, (r.leftmost, rightmostOf r))] i =
        if r.id = i then some (r.leftmost, rightmostOf r) else none from rfl,
        if_neg h]
    · rfl
  · rw [update_processed_found exonPos st r _ hl]

theorem lookupProc_update_some (exonPos : List ℕ) (st : AccState) (r : ReadRec)
    (i : String) (v : ℕ × ℕ) (h : lookupProc st.processed i = some v) :
    lookupProc (update_count_dictionary exonPos st r).processed i = some v := by
  cases hl : lookupProc st.processed r.id
  · rw [update_processed_fresh exonPos st r hl, lookupProc_append, h]
  · rw [update_processed_found exonPos st r _ hl]
    exact h

theorem processReads_lookup_none (exonPos : List ℕ) :
    ∀ (reads : List ReadRec) (st : AccState) (i : String),
      lookupProc st.processed i = none → (∀ r ∈ reads, r.id ≠ i) →
      lookupProc (processReads exonPos st reads).processed i = none := by
  intro reads
  induction reads with
  | nil => intro st i h _; exact h
  | cons r rest ih =>
    intro st i h hall
    rw [show processReads exonPos st (r :: rest) =
      processReads exonPos (update_count_dictionary exonPos st r) rest from rfl]
    exact ih _ i
      (by rw [lookupProc_update_ne exonPos st r i (hall r (List.mem_cons_self _ _))]
          exact h)
      (fun q hq => hall q (List.mem_cons_of_mem _ hq))

theorem processReads_lookup_some (exonPos : List ℕ) :
    ∀ (reads : List ReadRec) (st : AccState) (i : String) (v : ℕ × ℕ),
      lookupProc st.processed i = some v →
      lookupProc (processReads exonPos st reads).processed i = some v := by
  intro reads
  induction reads with
  | nil => intro st i v h; exact h
  | cons r rest ih =>
    intro st i v h
    rw [show processReads exonPos st (r :: rest) =
      processReads exonPos (update_count_dictionary exonPos st r) rest from rfl]
    exact ih _ i v (lookupProc_update_some exonPos st r i v h)

/-- C4 (counterexample): two mated records under pairing id `p1`, both
covering exon position 0, where the first-processed mate carries `N` there:
the first mate's `N` contributes nothing and the second mate's `A` is
skipped by the overlap memo, so the Evidence Table receives zero
contributions at the overlapping position — not "exactly one" as the claim
states. -/
theorem C4_first_mate_N_gets_zero :
    rightmostOf ⟨"p1", 0, ['N']⟩ = 1 ∧ rightmostOf ⟨"p1", 0, ['A']⟩ = 1 ∧
    totalAt (processReads [0] { counts := fun _ _ => 0, processed := [] }
      [⟨"p1", 0, ['N']⟩, ⟨"p1", 0, ['A']⟩]).counts 0 = 0 := by
  refine ⟨by decide, by decide, by decide⟩

/-- C4 (amended): for two records sharing a pairing id whose ranges both
cover exon position `p`, where the first record carries symbol `c` at `p`,
the Evidence Table receives exactly one contribution at `p` when `c` is not
`N` (from the first record; the second record's tallying skips the
intersection of its range with the memoized range), and zero contributions
when `c` is `N` (the second record is still skipped). -/
theorem C4_overlap_single_contribution (exonPos : List ℕ) (st0 : AccState)
    (r1 r2 : ReadRec) (p : ℕ) (c : Char)
    (hid : r1.id = r2.id)
    (hfresh : lookupProc st0.processed r1.id = none)
    (hp1 : r1.leftmost ≤ p ∧ p < rightmostOf r1)
    (hp2 : r2.leftmost ≤ p ∧ p < rightmostOf r2)
    (hex : p ∈ exonPos)
    (hg : r1.alignedSeq.getD (p - r1.leftmost) '?' = c)
    (hc : c ∈ nucs ∨ c = 'N') :
    totalAt (update_count_dictionary exonPos
        (update_count_dictionary exonPos st0 r1) r2).counts p =
      totalAt st0.counts p + (if c = 'N' then 0 else 1) := by
  have hl2 : lookupProc (update_count_dictionary exonPos st0 r1).processed r2.id =
      some (r1.leftmost, rightmostOf r1) := by
    rw [← hid]
    exact lookupProc_update_self exonPos st0 r1 hfresh
  rw [update_counts_found exonPos _ r2 _ hl2]
  rw [totalAt_tally_skip _ _ _ _ _ _ (Or.inr (Or.inl (by
    simp only [decide_eq_true_eq]
    exact ⟨hp2, hp1.1, hp1.2⟩)))]
  rw [update_counts_fresh exonPos st0 r1 hfresh]
  rcases hc with hnuc | hN
  · have hcN : c ≠ 'N' := by
      rintro rfl
      revert hnuc
      decide
    rw [if_neg hcN]
    exact totalAt_tally_in exonPos _ st0.counts r1.leftmost r1.alignedSeq p c hg
      hnuc ⟨hp1.1, hp1.2⟩ hex rfl
  · rw [if_pos hN]
    rw [totalAt_tally_skip _ _ _ _ _ _ (Or.inl (hg.trans hN))]
    omega

/-- Witness for C4 at a non-`N` base: mates `("p1", 0, "A")` and
`("p1", 0, "C")` overlapping at exon position 0 yield exactly one tallied
contribution. -/
theorem C4_overlap_single_contribution_witness :
    totalAt (update_count_dictionary [0]
        (update_count_dictionary [0] { counts := fun _ _ => 0, processed := [] }
          ⟨"p1", 0, ['A']⟩) ⟨"p1", 0, ['C']⟩).counts 0 =
      totalAt (fun _ _ => 0) 0 + (if ('A' : Char) = 'N' then 0 else 1) :=
  C4_overlap_single_contribution [0] { counts := fun _ _ => 0, processed := [] }
    ⟨"p1", 0, ['A']⟩ ⟨"p1", 0, ['C']⟩ 0 'A' rfl rfl (by decide) (by decide)
    (by decide) rfl (by decide)

/-- C10: the processed-reads memo is first-writer-wins — after any batch the
memo entry of a pairing id is the `[leftmost, rightmost)` range of the first
record processed under that id, never updated by later records — and
consequently with three records sharing an id, the later two are
deduplicated only against the first record's range: an exon position covered
by the second and third records but not by the first is tallied twice. -/
theorem C10_memo_first_writer_wins (exonPos : List ℕ) (st0 st0' : AccState)
    (pre post : List ReadRec) (r r1 r2 r3 : ReadRec) (p : ℕ) (c2 c3 : Char)
    (hfresh : lookupProc st0.processed r.id = none)
    (hpre : ∀ q ∈ pre, q.id ≠ r.id)
    (hid2 : r2.id = r1.id) (hid3 : r3.id = r1.id)
    (hfresh1 : lookupProc st0'.processed r1.id = none)
    (hnp1 : ¬(r1.leftmost ≤ p ∧ p < rightmostOf r1))
    (hp2 : r2.leftmost ≤ p ∧ p < rightmostOf r2)
    (hp3 : r3.leftmost ≤ p ∧ p < rightmostOf r3)
    (hex : p ∈ exonPos)
    (hg2 : r2.alignedSeq.getD (p - r2.leftmost) '?' = c2)
    (hg3 : r3.alignedSeq.getD (p - r3.leftmost) '?' = c3)
    (hc2 : c2 ∈ nucs) (hc3 : c3 ∈ nucs) :
    lookupProc (processReads exonPos st0 (pre ++ r :: post)).processed r.id =
      some (r.leftmost, rightmostOf r) ∧
    totalAt (processReads exonPos st0' [r1, r2, r3]).counts p =
      totalAt st0'.counts p + 2 := by
  constructor
  · rw [show processReads exonPos st0 (pre ++ r :: post) =
        processReads exonPos (update_count_dictionary exonPos
          (processReads exonPos st0 pre) r) post from by
      unfold processReads
      rw [List.foldl_append, List.foldl_cons]]
    apply processReads_lookup_some
    apply lookupProc_update_self
    exact processReads_lookup_none exonPos pre st0 r.id hfresh hpre
  · rw [show processReads exonPos st0' [r1, r2, r3] =
      update_count_dictionary exonPos (update_count_dictionary exonPos
        (update_count_dictionary exonPos st0' r1) r2) r3 from rfl]
    have hm1 : lookupProc (update_count_dictionary exonPos st0' r1).processed r1.id =
        some (r1.leftmost, rightmostOf r1) :=
      lookupProc_update_self exonPos st0' r1 hfresh1
    have hl2 : lookupProc (update_count_dictionary exonPos st0' r1).processed r2.id =
        some (r1.leftmost, rightmostOf r1) := by
      rw [hid2]
      exact hm1
    have hproc2 : (update_count_dictionary exonPos
        (update_count_dictionary exonPos st0' r1) r2).processed =
        (update_count_dictionary exonPos st0' r1).processed :=
      update_processed_found exonPos _ r2 _ hl2
    have hl3 : lookupProc (update_count_dictionary exonPos
        (update_count_dictionary exonPos st0' r1) r2).processed r3.id =
        some (r1.leftmost, rightmostOf r1) := by
      rw [hproc2, hid3]
      exact hm1
    have h1 : totalAt (update_count_dictionary exonPos st0' r1).counts p =
        totalAt st0'.counts p := by
      rw [update_counts_fresh exonPos st0' r1 hfresh1]
      exact totalAt_tally_skip _ _ _ _ _ _ (Or.inr (Or.inr (Or.inl hnp1)))
    have h2 : totalAt (update_count_dictionary exonPos
        (update_count_dictionary exonPos st0' r1) r2).counts p =
        totalAt (update_count_dictionary exonPos st0' r1).counts p + 1 := by
      rw [update_counts_found exonPos _ r2 _ hl2]
      exact totalAt_tally_in exonPos _ _ r2.leftmost r2.alignedSeq p c2 hg2 hc2
        hp2 hex (decide_eq_false (fun hh => hnp1 ⟨hh.2.1, hh.2.2⟩))
    have h3 : totalAt (update_count_dictionary exonPos (update_count_dictionary
        exonPos (update_count_dictionary exonPos st0' r1) r2) r3).counts p =
        totalAt (update_count_dictionary exonPos
          (update_count_dictionary exonPos st0' r1) r2).counts p + 1 := by
      rw [update_counts_found exonPos _ r3 _ hl3]
      exact totalAt_tally_in exonPos _ _ r3.leftmost r3.alignedSeq p c3 hg3 hc3
        hp3 hex (decide_eq_false (fun hh => hnp1 ⟨hh.2.1, hh.2.2⟩))
    omega

/-- Witness for C10: a single record `("q", 0, "A")` memoized as range
`[0, 1)`, then records `("q", 1, "C")` and `("q", 1, "G")` overlapping each
other (but not the first) at exon position 1, which is tallied twice. -/
theorem C10_memo_first_writer_wins_witness :
    lookupProc (processReads [0, 1] { counts := fun _ _ => 0, processed := [] }
      ([] ++ (⟨"q", 0, ['A']⟩ : ReadRec) :: [])).processed "q" =
      some (0, rightmostOf ⟨"q", 0, ['A']⟩) ∧
    totalAt (processReads [0, 1] { counts := fun _ _ => 0, processed := [] }
      [⟨"q", 0, ['A']⟩, ⟨"q", 1, ['C']⟩, ⟨"q", 1, ['G']⟩]).counts 1 =
      totalAt (fun _ _ => 0) 1 + 2 :=
  C10_memo_first_writer_wins [0, 1] { counts := fun _ _ => 0, processed := [] }
    { counts := fun _ _ => 0, processed := [] } [] [] ⟨"q", 0, ['A']⟩
    ⟨"q", 0, ['A']⟩ ⟨"q", 1, ['C']⟩ ⟨"q", 1, ['G']⟩ 1 'C' 'G' rfl
    (fun q hq => absurd hq (List.not_mem_nil q)) rfl rfl rfl (by decide)
    (by decide) (by decide) (by decide) rfl rfl (by decide) (by decide)

theorem progressiveStep_cons (a : Allele) (panel : List Allele)
    (keep : List String) (pos : ℕ) (present : List Char) :
    progressiveStep (a :: panel) keep pos present =
      progressiveStep panel
        (if a.id ∈ keep ∧ a.seq.getD pos '?' ∉ present then keep.erase a.id
         else keep) pos present := rfl

theorem findAllele_eq_none (k : String) :
    ∀ panel : List Allele, k ∉ panel.map Allele.id → findAllele panel k = none := by
  intro panel
  induction panel with
  | nil => intro _; rfl
  | cons a t ih =>
    intro h
    rw [List.map_cons] at h
    rw [show findAllele (a :: t) k = if a.id = k then some a
      else findAllele t k from rfl]
    rw [if_neg (fun he : a.id = k => h (by rw [← he]; exact List.mem_cons_self _ _)),
      ih (fun ht => h (List.mem_cons_of_mem _ ht))]

theorem survivesAt_cons (a : Allele) (t : List Allele) (pos : ℕ)
    (present : List Char) (k : String) :
    survivesAt (a :: t) pos present k =
      if a.id = k then decide (a.seq.getD pos '?' ∈ present)
      else survivesAt t pos present k := by
  by_cases h : a.id = k
  · rw [if_pos h]
    unfold survivesAt
    rw [show findAllele (a :: t) k = if a.id = k then some a
      else findAllele t k from rfl, if_pos h]
  · rw [if_neg h]
    unfold survivesAt
    rw [show findAllele (a :: t) k = if a.id = k then some a
      else findAllele t k from rfl, if_neg h]

theorem survivesAt_not_mem (pos : ℕ) (present : List Char) (k : String)
    (panel : List Allele) (h : k ∉ panel.map Allele.id) :
    survivesAt panel pos present k = true := by
  unfold survivesAt
  rw [findAllele_eq_none k panel h]

theorem progressiveStep_eq_filter :
    ∀ (panel : List Allele) (keep : List String) (pos : ℕ) (present : List Char),
      keep.Nodup → (panel.map Allele.id).Nodup →
      progressiveStep panel keep pos present =
        keep.filter (survivesAt panel pos present) := by
  intro panel
  induction panel with
  | nil =>
    intro keep pos present hk hp
    rw [show progressiveStep [] keep pos present = keep from rfl]
    have hcg : keep.filter (survivesAt [] pos present) =
        keep.filter (fun _ => true) :=
      List.filter_congr (fun x _ => rfl)
    rw [hcg, List.filter_true]
  | cons a t ih =>
    intro keep pos present hk hp
    rw [List.map_cons] at hp
    have hanot : a.id ∉ t.map Allele.id := (List.nodup_cons.mp hp).1
    have hpt : (t.map Allele.id).Nodup := (List.nodup_cons.mp hp).2
    rw [progressiveStep_cons]
    by_cases hs : a.seq.getD pos '?' ∈ present
    · rw [if_neg (fun hc => hc.2 hs)]
      rw [ih keep pos present hk hpt]
      apply List.filter_congr
      intro k hkm
      rw [survivesAt_cons]
      by_cases hak : a.id = k
      · rw [if_pos hak, survivesAt_not_mem pos present k t (hak ▸ hanot)]
        exact (decide_eq_true hs).symm
      · rw [if_neg hak]
    · by_cases hmem : a.id ∈ keep
      · rw [if_pos ⟨hmem, hs⟩]
        rw [ih (keep.erase a.id) pos present (hk.erase a.id) hpt]
        rw [hk.erase_eq_filter a.id, List.filter_filter]
        apply List.filter_congr
        intro k hkm
        rw [survivesAt_cons]
        by_cases hak : a.id = k
        · rw [if_pos hak, decide_eq_false hs]
          have hbne : (k != a.id) = false := by
            simp [hak]
          rw [hbne, Bool.and_false]
        · rw [if_neg hak]
          have hbne : (k != a.id) = true := by
            simp
            exact fun hh => hak hh.symm
          rw [hbne, Bool.and_true]
      · rw [if_neg (fun hc => hmem hc.1)]
        rw [ih keep pos present hk hpt]
        apply List.filter_congr
        intro k hkm
        rw [survivesAt_cons, if_neg (fun hak => hmem (by rw [hak]; exact hkm))]

theorem progressiveRun_cons (panel : List Allele) (keep : List String)
    (threshold : ℚ) (pe : ℕ × List (PropKey × PropVal))
    (t : List (ℕ × List (PropKey × PropVal))) :
    progressiveRun panel keep threshold (pe :: t) =
      progressiveRun panel
        (progressiveStep panel keep pe.1 (presentNucleotides pe.2 threshold))
        threshold t := rfl

theorem progressiveRun_eq_filter (panel : List Allele) (threshold : ℚ)
    (hp : (panel.map Allele.id).Nodup) :
    ∀ (table : List (ℕ × List (PropKey × PropVal))) (keep : List String),
      keep.Nodup →
      progressiveRun panel keep threshold table =
        keep.filter (fun k => table.all (fun pe =>
          survivesAt panel pe.1 (presentNucleotides pe.2 threshold) k)) := by
  intro table
  induction table with
  | nil =>
    intro keep hk
    rw [show progressiveRun panel keep threshold [] = keep from rfl]
    have hcg : keep.filter (fun k => ([] : List (ℕ × List (PropKey × PropVal))).all
        (fun pe => survivesAt panel pe.1 (presentNucleotides pe.2 threshold) k)) =
        keep.filter (fun _ => true) :=
      List.filter_congr (fun x _ => rfl)
    rw [hcg, List.filter_true]
  | cons pe t ih =>
    intro keep hk
    rw [progressiveRun_cons,
      progressiveStep_eq_filter panel keep pe.1 (presentNucleotides pe.2 threshold) hk hp,
      ih _ (hk.filter _), List.filter_filter]
    apply List.filter_congr
    intro k hkm
    rw [List.all_cons, Bool.and_comm]

/-- C8: over any proportion table, the Progressive Filter's elimination loop
computes exactly the intersection over all positions of the per-position
survivor sets (an allele survives a position when its nucleotide there is
among the position's present symbols), it is independent of the order in
which positions are processed, and it is idempotent. -/
theorem C8_filter_order_independent (panel : List Allele) (keep : List String)
    (threshold : ℚ) (table tablePerm : List (ℕ × List (PropKey × PropVal)))
    (hk : keep.Nodup) (hp : (panel.map Allele.id).Nodup)
    (hperm : tablePerm.Perm table) :
    progressiveRun panel keep threshold table =
      keep.filter (fun k => table.all (fun pe =>
        survivesAt panel pe.1 (presentNucleotides pe.2 threshold) k)) ∧
    progressiveRun panel keep threshold tablePerm =
      progressiveRun panel keep threshold table ∧
    progressiveRun panel (progressiveRun panel keep threshold table) threshold
        table =
      progressiveRun panel keep threshold table := by
  refine ⟨progressiveRun_eq_filter panel threshold hp table keep hk, ?_, ?_⟩
  · rw [progressiveRun_eq_filter panel threshold hp table keep hk,
      progressiveRun_eq_filter panel threshold hp tablePerm keep hk]
    apply List.filter_congr
    intro k hkm
    rw [Bool.eq_iff_iff, List.all_eq_true, List.all_eq_true]
    exact ⟨fun h x hx => h x (hperm.mem_iff.mpr hx),
      fun h x hx => h x (hperm.mem_iff.mp hx)⟩
  · rw [progressiveRun_eq_filter panel threshold hp table keep hk,
      progressiveRun_eq_filter panel threshold hp table _ (hk.filter _),
      List.filter_filter]
    apply List.filter_congr
    intro k hkm
    rw [Bool.and_self]

/-- Witness for C8 on a two-allele KIR2DL1 panel and a two-position table
processed forwards and in reverse. -/
theorem C8_filter_order_independent_witness :
    progressiveRun [⟨"KIR2DL1*001", ['A', 'C']⟩, ⟨"KIR2DL1*002", ['A', 'G']⟩]
        ["KIR2DL1*001", "KIR2DL1*002"] 5
        [(0, [(PropKey.sym 'A', PropVal.pct 100)]),
         (1, [(PropKey.sym 'C', PropVal.pct 90), (PropKey.sym 'G', PropVal.pct 10)])] =
      (["KIR2DL1*001", "KIR2DL1*002"]).filter (fun k =>
        ([(0, [(PropKey.sym 'A', PropVal.pct 100)]),
          (1, [(PropKey.sym 'C', PropVal.pct 90),
               (PropKey.sym 'G', PropVal.pct 10)])]).all (fun pe =>
          survivesAt [⟨"KIR2DL1*001", ['A', 'C']⟩, ⟨"KIR2DL1*002", ['A', 'G']⟩]
            pe.1 (presentNucleotides pe.2 5) k)) ∧
    progressiveRun [⟨"KIR2DL1*001", ['A', 'C']⟩, ⟨"KIR2DL1*002", ['A', 'G']⟩]
        ["KIR2DL1*001", "KIR2DL1*002"] 5
        ([(0, [(PropKey.sym 'A', PropVal.pct 100)]),
          (1, [(PropKey.sym 'C', PropVal.pct 90),
               (PropKey.sym 'G', PropVal.pct 10)])]).reverse =
      progressiveRun [⟨"KIR2DL1*001", ['A', 'C']⟩, ⟨"KIR2DL1*002", ['A', 'G']⟩]
        ["KIR2DL1*001", "KIR2DL1*002"] 5
        [(0, [(PropKey.sym 'A', PropVal.pct 100)]),
         (1, [(PropKey.sym 'C', PropVal.pct 90),
              (PropKey.sym 'G', PropVal.pct 10)])] ∧
    progressiveRun [⟨"KIR2DL1*001", ['A', 'C']⟩, ⟨"KIR2DL1*002", ['A', 'G']⟩]
        (progressiveRun [⟨"KIR2DL1*001", ['A', 'C']⟩, ⟨"KIR2DL1*002", ['A', 'G']⟩]
          ["KIR2DL1*001", "KIR2DL1*002"] 5
          [(0, [(PropKey.sym 'A', PropVal.pct 100)]),
           (1, [(PropKey.sym 'C', PropVal.pct 90),
                (PropKey.sym 'G', PropVal.pct 10)])]) 5
        [(0, [(PropKey.sym 'A', PropVal.pct 100)]),
         (1, [(PropKey.sym 'C', PropVal.pct 90),
              (PropKey.sym 'G', PropVal.pct 10)])] =
      progressiveRun [⟨"KIR2DL1*001", ['A', 'C']⟩, ⟨"KIR2DL1*002", ['A', 'G']⟩]
        ["KIR2DL1*001", "KIR2DL1*002"] 5
        [(0, [(PropKey.sym 'A', PropVal.pct 100)]),
         (1, [(PropKey.sym 'C', PropVal.pct 90),
              (PropKey.sym 'G', PropVal.pct 10)])] :=
  C8_filter_order_independent
    [⟨"KIR2DL1*001", ['A', 'C']⟩, ⟨"KIR2DL1*002", ['A', 'G']⟩]
    ["KIR2DL1*001", "KIR2DL1*002"] 5
    [(0, [(PropKey.sym 'A', PropVal.pct 100)]),
     (1, [(PropKey.sym 'C', PropVal.pct 90), (PropKey.sym 'G', PropVal.pct 10)])]
    ([(0, [(PropKey.sym 'A', PropVal.pct 100)]),
      (1, [(PropKey.sym 'C', PropVal.pct 90),
           (PropKey.sym 'G', PropVal.pct 10)])]).reverse
    (by decide) (by decide) (List.reverse_perm _)

/-- C2 (counterexample): a position whose five proportions are all below the
threshold yields an empty present-symbol set, and the elimination pass then
removes the (sole) candidate allele — its nucleotide is vacuously not a
member of the empty set — rather than removing no allele as the claim
states. -/
theorem C2_empty_present_removes_allele :
    presentNucleotides (nucs.map (fun c => (PropKey.sym c, PropVal.pct 0))) 5 = [] ∧
    progressiveStep [⟨"KIR2DL1*0010101", ['A']⟩] ["KIR2DL1*0010101"] 0
      (presentNucleotides (nucs.map (fun c => (PropKey.sym c, PropVal.pct 0))) 5) = [] ∧
    ["KIR2DL1*0010101"] ≠ ([] : List String) :=
  ⟨by decide, by decide, by decide⟩

theorem survivesAt_nil_present (pos : ℕ) (k : String) :
    ∀ panel : List Allele, k ∈ panel.map Allele.id →
      survivesAt panel pos [] k = false := by
  intro panel
  induction panel with
  | nil => intro h; cases h
  | cons a t ih =>
    intro h
    rw [survivesAt_cons]
    by_cases hak : a.id = k
    · rw [if_pos hak]
      exact decide_eq_false (List.not_mem_nil _)
    · rw [if_neg hak]
      apply ih
      rw [List.map_cons] at h
      rcases List.mem_cons.mp h with heq | ht
      · exact absurd heq.symm hak
      · exact ht

/-- C2 (amended): at a position whose present-symbol set is empty, the
Progressive Filter eliminates every remaining candidate allele that appears
in the reference panel (each allele's nucleotide fails the membership test
against the empty set); the pass itself does not crash. -/
theorem C2_empty_present_removes_all (panel : List Allele) (keep : List String)
    (pos : ℕ) (hk : keep.Nodup) (hp : (panel.map Allele.id).Nodup)
    (hcov : ∀ k ∈ keep, k ∈ panel.map Allele.id) :
    progressiveStep panel keep pos [] = [] := by
  rw [progressiveStep_eq_filter panel keep pos [] hk hp]
  rw [List.filter_eq_nil_iff]
  intro k hkm
  rw [survivesAt_nil_present pos k panel (hcov k hkm)]
  exact Bool.false_ne_true

/-- Witness for C2 (amended): one panel allele, one candidate, empty present
set — the candidate list is emptied. -/
theorem C2_empty_present_removes_all_witness :
    progressiveStep [⟨"KIR2DL1*002", ['G']⟩] ["KIR2DL1*002"] 0 [] = [] :=
  C2_empty_present_removes_all [⟨"KIR2DL1*002", ['G']⟩] ["KIR2DL1*002"] 0
    (by decide) (by decide) (by decide)

/-- C9 (counterexample): after derivation produces the five-key proportion
entry for a fully-`A` position, the Progressive Filter's annotation step
mutates the Proportion Table: the entry gains a sixth, synthetic
`"Present Nucleotides"` key, so the table is not read-only and no longer
keeps exactly the five symbol keys. -/
theorem C9_annotation_mutates_table :
    (create_proportion_dictionary [0] (fun _ c => if c = 'A' then 10 else 0)).map
        (fun tbl => tbl.map (fun pe => (pe.1, pe.2.map Prod.fst))) =
      some [(0, [PropKey.sym 'A', PropKey.sym 'T', PropKey.sym 'G',
        PropKey.sym 'C', PropKey.sym '.'])] ∧
    annotatePresent 5 [(0, [(PropKey.sym 'A', PropVal.pct 100),
        (PropKey.sym 'T', PropVal.pct 0), (PropKey.sym 'G', PropVal.pct 0),
        (PropKey.sym 'C', PropVal.pct 0), (PropKey.sym '.', PropVal.pct 0)])] ≠
      [(0, [(PropKey.sym 'A', PropVal.pct 100), (PropKey.sym 'T', PropVal.pct 0),
        (PropKey.sym 'G', PropVal.pct 0), (PropKey.sym 'C', PropVal.pct 0),
        (PropKey.sym '.', PropVal.pct 0)])] ∧
    ((annotatePresent 5 [(0, [(PropKey.sym 'A', PropVal.pct 100),
        (PropKey.sym 'T', PropVal.pct 0), (PropKey.sym 'G', PropVal.pct 0),
        (PropKey.sym 'C', PropVal.pct 0),
        (PropKey.sym '.', PropVal.pct 0)])]).headD (0, [])).2.map Prod.fst =
      [PropKey.sym 'A', PropKey.sym 'T', PropKey.sym 'G', PropKey.sym 'C',
        PropKey.sym '.', PropKey.presentNuc] :=
  ⟨by decide, by decide, by decide⟩

theorem dictGet_cons (e : PropKey × PropVal) (rest : List (PropKey × PropVal))
    (k : PropKey) :
    dictGet (e :: rest) k = if e.1 = k then some e.2 else dictGet rest k := by
  by_cases h : e.1 = k
  · rw [if_pos h]
    unfold dictGet
    rw [List.find?_cons_of_pos _ (by simpa using h)]
    rfl
  · rw [if_neg h]
    unfold dictGet
    rw [List.find?_cons_of_neg _ (by simpa using h)]

theorem dictGet_append_single (k k' : PropKey) (v : PropVal) (h : k' ≠ k) :
    ∀ d : List (PropKey × PropVal), dictGet (d ++ [(k', v)]) k = dictGet d k := by
  intro d
  induction d with
  | nil =>
    rw [List.nil_append, dictGet_cons, if_neg h]
  | cons e rest ih =>
    rw [List.cons_append, dictGet_cons, dictGet_cons, ih]

/-- C9 (amended): the Progressive Filter does modify the Proportion Table,
but only by assigning the synthetic `"Present Nucleotides"` key into each
position's entry: the position keys are unchanged, every nucleotide key
keeps its derived percentage, and the entry's key list becomes the original
five symbol keys followed by the one synthetic key.  (The Combinatorial
Matcher only reads the table.) -/
theorem C9_annotation_adds_one_key (threshold : ℚ)
    (table : List (ℕ × List (PropKey × PropVal)))
    (pe : ℕ × List (PropKey × PropVal)) (c : Char)
    (h : ∀ qe ∈ table, PropKey.presentNuc ∉ qe.2.map Prod.fst)
    (hpe : pe ∈ table) :
    (annotatePresent threshold table).map Prod.fst = table.map Prod.fst ∧
    dictGet (dictSet pe.2 PropKey.presentNuc
        (PropVal.plist (presentNucleotides pe.2 threshold))) (PropKey.sym c) =
      dictGet pe.2 (PropKey.sym c) ∧
    (dictSet pe.2 PropKey.presentNuc
        (PropVal.plist (presentNucleotides pe.2 threshold))).map Prod.fst =
      pe.2.map Prod.fst ++ [PropKey.presentNuc] := by
  have habs : pe.2.any (fun e => decide (e.1 = PropKey.presentNuc)) = false := by
    rw [List.any_eq_false]
    intro e he
    simp only [decide_eq_true_eq]
    intro heq
    exact h pe hpe (List.mem_map.mpr ⟨e, he, heq⟩)
  have hnot : ¬(pe.2.any (fun e => decide (e.1 = PropKey.presentNuc)) = true) := by
    rw [habs]
    exact Bool.false_ne_true
  refine ⟨?_, ?_, ?_⟩
  · simp [annotatePresent, List.map_map]
  · rw [dictSet, if_neg hnot]
    exact dictGet_append_single _ _ _ (by intro hh; cases hh) pe.2
  · rw [dictSet, if_neg hnot, List.map_append]
    rfl

/-- Witness for C9 (amended) on the one-position table derived from a
fully-`A` position. -/
theorem C9_annotation_adds_one_key_witness :
    (annotatePresent 5 [(0, [(PropKey.sym 'A', PropVal.pct 100),
        (PropKey.sym 'T', PropVal.pct 0), (PropKey.sym 'G', PropVal.pct 0),
        (PropKey.sym 'C', PropVal.pct 0),
        (PropKey.sym '.', PropVal.pct 0)])]).map Prod.fst =
      ([(0, [(PropKey.sym 'A', PropVal.pct 100), (PropKey.sym 'T', PropVal.pct 0),
        (PropKey.sym 'G', PropVal.pct 0), (PropKey.sym 'C', PropVal.pct 0),
        (PropKey.sym '.', PropVal.pct 0)])] :
          List (ℕ × List (PropKey × PropVal))).map Prod.fst ∧
    dictGet (dictSet [(PropKey.sym 'A', PropVal.pct 100),
        (PropKey.sym 'T', PropVal.pct 0), (PropKey.sym 'G', PropVal.pct 0),
        (PropKey.sym 'C', PropVal.pct 0), (PropKey.sym '.', PropVal.pct 0)]
        PropKey.presentNuc
        (PropVal.plist (presentNucleotides [(PropKey.sym 'A', PropVal.pct 100),
          (PropKey.sym 'T', PropVal.pct 0), (PropKey.sym 'G', PropVal.pct 0),
          (PropKey.sym 'C', PropVal.pct 0), (PropKey.sym '.', PropVal.pct 0)] 5)))
        (PropKey.sym 'A') =
      dictGet [(PropKey.sym 'A', PropVal.pct 100), (PropKey.sym 'T', PropVal.pct 0),
        (PropKey.sym 'G', PropVal.pct 0), (PropKey.sym 'C', PropVal.pct 0),
        (PropKey.sym '.', PropVal.pct 0)] (PropKey.sym 'A') ∧
    (dictSet [(PropKey.sym 'A', PropVal.pct 100), (PropKey.sym 'T', PropVal.pct 0),
        (PropKey.sym 'G', PropVal.pct 0), (PropKey.sym 'C', PropVal.pct 0),
        (PropKey.sym '.', PropVal.pct 0)] PropKey.presentNuc
        (PropVal.plist (presentNucleotides [(PropKey.sym 'A', PropVal.pct 100),
          (PropKey.sym 'T', PropVal.pct 0), (PropKey.sym 'G', PropVal.pct 0),
          (PropKey.sym 'C', PropVal.pct 0),
          (PropKey.sym '.', PropVal.pct 0)] 5))).map Prod.fst =
      [(PropKey.sym 'A', PropVal.pct 100), (PropKey.sym 'T', PropVal.pct 0),
        (PropKey.sym 'G', PropVal.pct 0), (PropKey.sym 'C', PropVal.pct 0),
        (PropKey.sym '.', PropVal.pct 0)].map Prod.fst ++ [PropKey.presentNuc] :=
  C9_annotation_adds_one_key 5
    [(0, [(PropKey.sym 'A', PropVal.pct 100), (PropKey.sym 'T', PropVal.pct 0),
      (PropKey.sym 'G', PropVal.pct 0), (PropKey.sym 'C', PropVal.pct 0),
      (PropKey.sym '.', PropVal.pct 0)])]
    (0, [(PropKey.sym 'A', PropVal.pct 100), (PropKey.sym 'T', PropVal.pct 0),
      (PropKey.sym 'G', PropVal.pct 0), (PropKey.sym 'C', PropVal.pct 0),
      (PropKey.sym '.', PropVal.pct 0)]) 'A' (by decide) (by decide)
